import Mathlib

/-!
Verification development for the process-enumeration utility of this
repository (`listProcesses` and its helpers `addToTree`, `findName`,
the POSIX `ps` line parser and the Windows snapshot pipeline).

Modelling conventions of this shallow embedding:
* JS strings are `String` / `List Char`; the regular expressions of the
  source are literal-substring or fixed-format patterns, embedded as
  executable scanners with the same leftmost-match semantics.
* JS numbers are modelled as exact rationals `ℚ`; the JS `NaN` value
  (which arises from `0/0`) is modelled as `none` in `Option ℚ`.
* The JS `Map` (insertion ordered, keyed by pid) is an association list
  `List (Nat × PItem)`; `Map.set` replaces in place or appends at the end.
* Tree nodes are the map records; an item's `children` array of object
  references is modelled as the list of the children's pids (the map holds
  the canonical record per pid).  The resolved tree value is read out of
  the map by the fuel-bounded `buildT`.
-/

namespace ProcessList

/-- `s.data` shorthand: the character list of a string literal. -/
def str (s : String) : List Char := s.data

/-- The character class `[a-zA-Z-]` used by the `--type=` and the
script-name regular expressions of `findName`. -/
def alphaDash (c : Char) : Bool :=
  ('a' ≤ c && c ≤ 'z') || ('A' ≤ c && c ≤ 'Z') || c = '-'

/-- Substring containment, i.e. whether `RegExp.exec` of a literal pattern
succeeds on `s`. -/
def occurs (pat : List Char) : List Char → Bool
  | [] => pat.isEmpty
  | c :: cs => pat.isPrefixOf (c :: cs) || occurs pat cs

/-- The `TYPE` regular expression `--type=([a-zA-Z-]+)`: leftmost
occurrence of `--type=` followed by at least one `[a-zA-Z-]` character;
returns the captured (maximal) group. -/
def findTypeAux : List Char → Option (List Char)
  | [] => none
  | c :: cs =>
    if (str "--type=").isPrefixOf (c :: cs) then
      let v := ((c :: cs).drop 7).takeWhile alphaDash
      if v.isEmpty then findTypeAux cs else some v
    else findTypeAux cs

/-- The global `JS` scan for the pattern `[a-zA-Z-]+\.js`: all successive leftmost
matches.  The fuel argument (instantiated with the list length, which the
recursion never exhausts) keeps the recursion structural. -/
def findScriptsAux : Nat → List Char → List (List Char)
  | 0, _ => []
  | _ + 1, [] => []
  | fuel + 1, c :: cs =>
    if alphaDash c then
      let run := (c :: cs).takeWhile alphaDash
      let rest := (c :: cs).drop run.length
      if (str ".js").isPrefixOf rest then
        (run ++ str ".js") :: findScriptsAux fuel (rest.drop 3)
      else findScriptsAux fuel cs
    else findScriptsAux fuel cs

def findScripts (cmd : List Char) : List (List Char) :=
  findScriptsAux cmd.length cmd

/-- `result += matches + ' '` accumulated over the script scan. -/
def joinScripts (l : List (List Char)) : List Char :=
  l.foldl (fun acc s => acc ++ s ++ [' ']) []

/-- `findName` of the source, over character lists. -/
def findNameL (cmd : List Char) : List Char :=
  if occurs (str "\\watcher\\win32\\CodeHelper.exe") cmd then
    str "watcherService "
  else if occurs (str "--crashes-directory") cmd then
    str "electron-crash-reporter"
  else if occurs (str "\\pipe\\winpty-control") cmd then
    str "winpty-process"
  else if occurs (str "conhost.exe") cmd then
    str "console-window-host (Windows internal process)"
  else
    match findTypeAux cmd with
    | some v =>
      if v = str "renderer" then
        if occurs (str "--disable-blink-features=Auxclick") cmd then
          str "window"
        else
          str "shared-process"
      else v
    | none =>
      let result := joinScripts (findScripts cmd)
      if !result.isEmpty && !((str "node ").isPrefixOf cmd) then
        str "electron_node " ++ result
      else cmd

/-- `findName` of the source. -/
def findName (cmd : String) : String := ⟨findNameL cmd.data⟩

/-- `ProcessItem` of the source.  `load : Option ℚ` models a JS number
that may be `NaN` (`none`); `children : Option (List Nat)` models the
optional `children` array, holding the children's pids. -/
structure PItem where
  name : String
  cmd : String
  pid : Nat
  ppid : Nat
  load : Option ℚ
  mem : ℚ
  children : Option (List Nat)
deriving DecidableEq

abbrev PMap := List (Nat × PItem)

/-- `Map.get`. -/
def mget : PMap → Nat → Option PItem
  | [], _ => none
  | (k, v) :: m, k' => if k' = k then some v else mget m k'

/-- `Map.set`: replace the existing entry in place, else append. -/
def mset : PMap → Nat → PItem → PMap
  | [], k, v => [(k, v)]
  | (k0, v0) :: m, k, v =>
    if k = k0 then (k0, v) :: m else (k0, v0) :: mset m k v

def keys (m : PMap) : List Nat := m.map Prod.fst

/-- One parsed POSIX `ps` record, in the argument order of `addToTree`. -/
structure PsEntry where
  pid : Nat
  ppid : Nat
  cmd : String
  load : ℚ
  mem : ℚ
deriving DecidableEq

/-- Local state of the POSIX path: the captured `rootItem` variable
(identified by its pid) and the `map`. -/
structure PosixState where
  root : Option Nat
  map : PMap
deriving DecidableEq

/-- The `ProcessItem` object literal that `addToTree` constructs. -/
def mkPsItem (e : PsEntry) : PItem :=
  { name := findName e.cmd, cmd := e.cmd, pid := e.pid, ppid := e.ppid
    load := some e.load, mem := e.mem, children := none }

/-- `parent.children.push(item)` followed by the conditional re-sort
(`.sort((a, b) => a.pid - b.pid)` when more than one child). -/
def insertKid (l : List Nat) (c : Nat) : List Nat :=
  let kids := l ++ [c]
  if 1 < kids.length then List.insertionSort (· ≤ ·) kids else kids

/-- `addToTree` of the source: insert a record if it is the root or its
parent is already present; append to the parent's children and re-sort
(ascending by pid) when the child count exceeds one. -/
def addToTree (rootPid : Nat) (st : PosixState) (e : PsEntry) : PosixState :=
  let parent := mget st.map e.ppid
  if e.pid = rootPid ∨ parent.isSome then
    let m1 := mset st.map e.pid (mkPsItem e)
    let root1 := if e.pid = rootPid then some e.pid else st.root
    match parent with
    | none => ⟨root1, m1⟩
    | some p =>
      ⟨root1, mset m1 e.ppid
        { p with children := some (insertKid (p.children.getD []) e.pid) }⟩
  else st

/-- The resolved tree value (nested `ProcessItem` object). -/
inductive PTree where
  | node (name cmd : String) (pid ppid : Nat) (load : Option ℚ) (mem : ℚ)
      (children : Option (List PTree))

def PTree.pid : PTree → Nat
  | .node _ _ p _ _ _ _ => p

/-- Read the object graph out of the map: build the nodes for the pid list
`ps`, resolving each node's children recursively.  The fuel only bounds
the recursion; it is instantiated generously. -/
def buildB (m : PMap) : Nat → List Nat → Option (List PTree)
  | 0, _ => none
  | _ + 1, [] => some []
  | fuel + 1, p :: ps =>
    match mget m p with
    | none => none
    | some it =>
      let oc : Option (Option (List PTree)) :=
        match it.children with
        | none => some none
        | some l => (buildB m fuel l).map some
      match oc, buildB m fuel ps with
      | some c, some ts =>
        some (.node it.name it.cmd it.pid it.ppid it.load it.mem c :: ts)
      | _, _ => none

def buildT (m : PMap) (fuel : Nat) (p : Nat) : Option PTree :=
  match buildB m fuel [p] with
  | some [t] => some t
  | _ => none

/-- The POSIX path after parsing: fold the parsed entries through
`addToTree` starting from an empty map and an unset `rootItem`. -/
def posixState (entries : List PsEntry) (rootPid : Nat) : PosixState :=
  entries.foldl (addToTree rootPid) ⟨none, []⟩

/-- `resolve(rootItem)` of the POSIX path: `none` models resolving with
`undefined`. -/
def posixResult (entries : List PsEntry) (rootPid : Nat) : Option PTree :=
  match posixState entries rootPid with
  | ⟨none, _⟩ => none
  | ⟨some r, m⟩ => buildT m ((m.length + 2) * (m.length + 2)) r

/-! ### The POSIX `ps` line parser

`PID_CMD = ^\s*([0-9]+)\s+([0-9]+)\s+([0-9]+\.[0-9]+)\s+([0-9]+\.[0-9]+)\s+(.+)$`
applied to `line.trim()`.  Because the digit and the whitespace character
classes are disjoint, the regular expression's backtracking never changes
the maximal-munch reading, so the parser below is an exact embedding. -/

/-- The JS `\s` class (restricted to its ASCII members, the only ones a
`ps` line can contain). -/
def wsB (c : Char) : Bool :=
  c = ' ' || c = '\t' || c = '\n' || c = '\x0d' ||
    c = '\x0b' || c = '\x0c'

def digitB (c : Char) : Bool := '0' ≤ c && c ≤ '9'

/-- JS line terminators, which `.` does not match. -/
def termB (c : Char) : Bool :=
  c = '\n' || c = '\x0d' || c = Char.ofNat 0x2028 || c = Char.ofNat 0x2029

/-- `String.prototype.trim`. -/
def trimJS (l : List Char) : List Char :=
  ((l.dropWhile wsB).reverse.dropWhile wsB).reverse

/-- `parseInt` on an all-digit match. -/
def natOfDigits (l : List Char) : Nat :=
  l.foldl (fun n c => 10 * n + (c.toNat - '0'.toNat)) 0

/-- `parseFloat` on a `[0-9]+\.[0-9]+` match, as an exact rational. -/
def ratOfDigits (intPart fracPart : List Char) : ℚ :=
  (natOfDigits intPart : ℚ) + (natOfDigits fracPart : ℚ) / 10 ^ fracPart.length

/-- `PID_CMD.exec(line.trim())` plus the `parseInt`/`parseFloat`
conversions the caller applies to the five captured groups. -/
def parsePsLineL (l : List Char) : Option (Nat × Nat × ℚ × ℚ × List Char) :=
  let t0 := trimJS l
  let t := t0.dropWhile wsB
  let d1 := t.takeWhile digitB
  let r1 := t.dropWhile digitB
  if d1.isEmpty then none else
  let s1 := r1.takeWhile wsB
  let r2 := r1.dropWhile wsB
  if s1.isEmpty then none else
  let d2 := r2.takeWhile digitB
  let r3 := r2.dropWhile digitB
  if d2.isEmpty then none else
  let s2 := r3.takeWhile wsB
  let r4 := r3.dropWhile wsB
  if s2.isEmpty then none else
  let a1 := r4.takeWhile digitB
  let r5 := r4.dropWhile digitB
  if a1.isEmpty then none else
  match r5 with
  | '.' :: r6 =>
    let a2 := r6.takeWhile digitB
    let r7 := r6.dropWhile digitB
    if a2.isEmpty then none else
    let s3 := r7.takeWhile wsB
    let r8 := r7.dropWhile wsB
    if s3.isEmpty then none else
    let b1 := r8.takeWhile digitB
    let r9 := r8.dropWhile digitB
    if b1.isEmpty then none else
    match r9 with
    | '.' :: r10 =>
      let b2 := r10.takeWhile digitB
      let r11 := r10.dropWhile digitB
      if b2.isEmpty then none else
      let s4 := r11.takeWhile wsB
      let rest := r11.dropWhile wsB
      if s4.isEmpty then none else
      if rest.isEmpty then none else
      if rest.any termB then none else
      some (natOfDigits d1, natOfDigits d2, ratOfDigits a1 a2,
        ratOfDigits b1 b2, rest)
    | _ => none
  | _ => none

/-- The POSIX line loop: parse each line, feed matches to `addToTree`
(`load` is percent CPU, `mem` is percent memory), skip the rest. -/
def processLines (rootPid : Nat) (lines : List (List Char)) : PosixState :=
  lines.foldl
    (fun st line =>
      match parsePsLineL line with
      | some (pid, ppid, cpu, mem, cmd) =>
        addToTree rootPid st ⟨pid, ppid, ⟨cmd⟩, cpu, mem⟩
      | none => st)
    ⟨none, []⟩

/-! ### The Windows path -/

inductive WinType where
  | processInfo
  | topProcess
deriving DecidableEq

/-- A record of the PowerShell helper's JSON output.  `cpuLoad = none`
models a missing/`undefined` sample array. -/
structure WinRaw where
  type : WinType
  name : String
  processId : Nat
  parentProcessId : Nat
  commandLine : String
  handles : Nat
  cpuLoad : Option (List ℚ)
  workingSetSize : ℚ
deriving DecidableEq

/-- `cleanUNCPrefix` of the source, over character lists. -/
def cleanUNCPrefixL (value : List Char) : List Char :=
  if (str "\\\\?\\").isPrefixOf value then value.drop 4
  else if (str "\\??\\").isPrefixOf value then value.drop 4
  else if (str "\"\\\\?\\").isPrefixOf value then '"' :: value.drop 5
  else if (str "\"\\??\\").isPrefixOf value then '"' :: value.drop 5
  else value

/-- `cleanUNCPrefix` of the source. -/
def cleanUNCPrefix (value : String) : String := ⟨cleanUNCPrefixL value.data⟩

/-- JS division where the denominator is a length; `0/0` is `NaN`
(modelled `none`). -/
def jsDivNat (a : ℚ) (n : Nat) : Option ℚ :=
  if n = 0 then none else some (a / n)

/-- The record built for one `processInfo` item: sum the CPU-load samples
and divide by their count (`-1` when the array is absent), clean the UNC
prefix, classify the name. -/
def mkWinRecord (item : WinRaw) : PItem :=
  let load : Option ℚ :=
    match item.cpuLoad with
    | some samples => jsDivNat (samples.foldl (· + ·) 0) samples.length
    | none => some (-1)
  let commandLine := cleanUNCPrefix item.commandLine
  { name := findName commandLine, cmd := commandLine
    pid := item.processId, ppid := item.parentProcessId
    load := load, mem := item.workingSetSize, children := none }

/-- First pass: `processItems.set(item.processId, ...)` for every
`processInfo` record. -/
def collectStep (m : PMap) (item : WinRaw) : PMap :=
  if item.type = WinType.processInfo then
    mset m item.processId (mkWinRecord item)
  else m

def windowsCollect (items : List WinRaw) : PMap :=
  items.foldl collectStep []

/-- Second pass: `processItems.forEach`, appending every item to its
parent's children when the parent exists (including an item that is its
own parent). -/
def linkStep (acc : PMap) (k : Nat) : PMap :=
  match mget acc k with
  | none => acc
  | some item =>
    match mget acc item.ppid with
    | none => acc
    | some parent =>
      mset acc item.ppid
        { parent with children := some ((parent.children.getD []) ++ [item.pid]) }

def windowsLink (m : PMap) : PMap :=
  (keys m).foldl linkStep m

/-- Third pass: sort every present children array ascending by pid. -/
def windowsSort (m : PMap) : PMap :=
  m.map fun kv =>
    (kv.1, { kv.2 with children := kv.2.children.map (List.insertionSort (· ≤ ·)) })

/-- The Windows path after the JSON parse: fail when the root pid is
absent from the fully built map, otherwise link, sort, and resolve with
the root record (the returned object graph is the linked map). -/
def windowsResult (items : List WinRaw) (rootPid : Nat) :
    Except String (PItem × PMap) :=
  let m := windowsCollect items
  match mget m rootPid with
  | none => .error ("Root process " ++ toString rootPid ++ " not found")
  | some _ =>
    let linked := windowsSort (windowsLink m)
    -- the root key survives linking and sorting, so this lookup succeeds
    match mget linked rootPid with
    | some it => .ok (it, linked)
    | none => .error "unreachable"

/-- The resolved root object of the Windows path, read out as a tree. -/
def windowsTree (items : List WinRaw) (rootPid : Nat) : Option PTree :=
  match windowsResult items rootPid with
  | .error _ => none
  | .ok (_, linked) =>
    buildT linked ((linked.length + 2) * (linked.length + 2)) rootPid

/-! ### Well-formedness of a resolved tree (claim C3's invariant) -/

/-- Strictly ascending adjacent pids. -/
def ascChain : List Nat → Bool
  | [] => true
  | [_] => true
  | a :: b :: t => if a < b then ascChain (b :: t) else false

/-- Every node of the tree either omits the `children` field, or carries a
nonempty children sequence in strictly ascending pid order. -/
inductive TreeOK : PTree → Prop where
  | leaf : ∀ n c p pp ld m, TreeOK (.node n c p pp ld m none)
  | branch : ∀ n c p pp ld m ts, ts ≠ [] → ascChain (ts.map PTree.pid) = true →
      (∀ t ∈ ts, TreeOK t) → TreeOK (.node n c p pp ld m (some ts))

/-! ### Association-list (JS `Map`) lemmas -/

theorem mget_mset (m : PMap) (k : Nat) (v : PItem) (k' : Nat) :
    mget (mset m k v) k' = if k' = k then some v else mget m k' := by
  induction m with
  | nil => by_cases h : k' = k <;> simp [mset, mget, h]
  | cons kv m ih =>
    obtain ⟨k0, v0⟩ := kv
    by_cases h0 : k = k0
    · subst h0
      by_cases h : k' = k <;> simp [mset, mget, h]
    · by_cases h : k' = k0
      · subst h
        have hne : ¬ k' = k := fun hh => h0 hh.symm
        simp [mset, mget, h0, hne]
      · simp [mset, mget, h0, h, ih]

theorem keys_cons (k0 : Nat) (v0 : PItem) (m : PMap) :
    keys ((k0, v0) :: m) = k0 :: keys m := rfl

theorem mem_keys_of_mget {m : PMap} {k : Nat} {it : PItem}
    (h : mget m k = some it) : k ∈ keys m := by
  induction m with
  | nil => simp [mget] at h
  | cons kv m ih =>
    obtain ⟨k0, v0⟩ := kv
    rw [keys_cons]
    by_cases hk : k = k0
    · subst hk; exact List.mem_cons_self _ _
    · simp only [mget, if_neg hk] at h
      exact List.mem_cons_of_mem _ (ih h)

theorem mget_of_mem_keys {m : PMap} {k : Nat} (h : k ∈ keys m) :
    ∃ it, mget m k = some it := by
  induction m with
  | nil => simp [keys] at h
  | cons kv m ih =>
    obtain ⟨k0, v0⟩ := kv
    rw [keys_cons] at h
    by_cases hk : k = k0
    · subst hk; exact ⟨v0, by simp [mget]⟩
    · rcases List.mem_cons.mp h with h1 | h2
      · exact absurd h1 hk
      · obtain ⟨it, hit⟩ := ih h2
        exact ⟨it, by simp [mget, hk, hit]⟩

theorem keys_mset_of_mem {m : PMap} {k : Nat} (v : PItem) (h : k ∈ keys m) :
    keys (mset m k v) = keys m := by
  induction m with
  | nil => simp [keys] at h
  | cons kv m ih =>
    obtain ⟨k0, v0⟩ := kv
    rw [keys_cons] at h
    by_cases hk : k = k0
    · subst hk; simp [mset, keys]
    · rcases List.mem_cons.mp h with h1 | h2
      · exact absurd h1 hk
      · have hne : ¬ k = k0 := hk
        simp only [mset, if_neg hne, keys_cons, ih h2]

theorem keys_mset_of_not_mem {m : PMap} {k : Nat} (v : PItem) (h : k ∉ keys m) :
    keys (mset m k v) = keys m ++ [k] := by
  induction m with
  | nil => simp [mset, keys]
  | cons kv m ih =>
    obtain ⟨k0, v0⟩ := kv
    rw [keys_cons] at h
    have h1 : ¬ k = k0 := fun hh => h (hh ▸ List.mem_cons_self _ _)
    have h2 : k ∉ keys m := fun hh => h (List.mem_cons_of_mem _ hh)
    simp only [mset, if_neg h1, keys_cons, ih h2, List.cons_append]

theorem nodup_keys_mset {m : PMap} {k : Nat} (v : PItem)
    (h : (keys m).Nodup) : (keys (mset m k v)).Nodup := by
  by_cases hk : k ∈ keys m
  · rw [keys_mset_of_mem v hk]; exact h
  · rw [keys_mset_of_not_mem v hk]
    simp [List.nodup_append, h, hk]

/-! ### Character-class and run lemmas for the `ps` line parser -/

theorem ws_not_digit {c : Char} (h : wsB c = true) : digitB c = false := by
  simp only [wsB, Bool.or_eq_true, decide_eq_true_eq] at h
  rcases h with ((((rfl | rfl) | rfl) | rfl) | rfl) | rfl <;> decide

theorem digit_not_ws {c : Char} (h : digitB c = true) : wsB c = false := by
  cases hw : wsB c with
  | false => rfl
  | true => rw [ws_not_digit hw] at h; cases h

theorem span_run (p : Char → Bool) (xs ys : List Char)
    (hxs : ∀ x ∈ xs, p x = true)
    (hys : ∀ c, ys.head? = some c → p c = false) :
    (xs ++ ys).takeWhile p = xs ∧ (xs ++ ys).dropWhile p = ys := by
  induction xs with
  | nil =>
    cases ys with
    | nil => simp
    | cons c cs =>
      have hc := hys c rfl
      simp [List.takeWhile_cons, List.dropWhile_cons, hc]
  | cons x xs ih =>
    have hx : p x = true := hxs x (by simp)
    have ih' := ih (fun a ha => hxs a (by simp [ha]))
    simp [List.takeWhile_cons, List.dropWhile_cons, hx, ih'.1, ih'.2]

theorem dropWhile_run (p : Char → Bool) (w l : List Char)
    (hw : ∀ c ∈ w, p c = true) :
    (w ++ l).dropWhile p = l.dropWhile p := by
  induction w with
  | nil => simp
  | cons c w ih =>
    have hc : p c = true := hw c (by simp)
    simp [List.dropWhile_cons, hc, ih (fun a ha => hw a (by simp [ha]))]

theorem dropWhile_head_false (p : Char → Bool) (l : List Char)
    (h : ∀ c, l.head? = some c → p c = false) :
    l.dropWhile p = l := by
  cases l with
  | nil => rfl
  | cons c cs => simp [List.dropWhile_cons, h c rfl]

/-! ### `addToTree` case analysis -/

theorem addToTree_skip {rootPid : Nat} {st : PosixState} {e : PsEntry}
    (h1 : e.pid ≠ rootPid) (h2 : mget st.map e.ppid = none) :
    addToTree rootPid st e = st := by
  simp [addToTree, h1, h2]

theorem addToTree_root_new {rootPid : Nat} {st : PosixState} {e : PsEntry}
    (h2 : mget st.map e.ppid = none) (h1 : e.pid = rootPid) :
    addToTree rootPid st e = ⟨some e.pid, mset st.map e.pid (mkPsItem e)⟩ := by
  simp [addToTree, h1, h2]

theorem addToTree_parent {rootPid : Nat} {st : PosixState} {e : PsEntry}
    {p : PItem} (h2 : mget st.map e.ppid = some p) :
    addToTree rootPid st e =
      ⟨if e.pid = rootPid then some e.pid else st.root,
       mset (mset st.map e.pid (mkPsItem e)) e.ppid
         { p with children := some (insertKid (p.children.getD []) e.pid) }⟩ := by
  simp [addToTree, h2]

theorem addToTree_root_eq (rootPid : Nat) (st : PosixState) (e : PsEntry) :
    (addToTree rootPid st e).root =
      if e.pid = rootPid then some e.pid else st.root := by
  cases h2 : mget st.map e.ppid with
  | none =>
    by_cases h1 : e.pid = rootPid
    · rw [addToTree_root_new h2 h1, if_pos h1]
    · rw [addToTree_skip h1 h2, if_neg h1]
  | some p => rw [addToTree_parent h2]

/-! ### The sorted-insert of `addToTree` -/

theorem insertKid_ok {l : List Nat} {c : Nat}
    (hs : List.Sorted (· < ·) l) (hc : c ∉ l) :
    List.Sorted (· < ·) (insertKid l c) ∧ insertKid l c ≠ [] ∧
      (∀ x ∈ insertKid l c, x ∈ l ∨ x = c) := by
  unfold insertKid
  by_cases hlen : 1 < (l ++ [c]).length
  · simp only [if_pos hlen]
    have hnd : (l ++ [c]).Nodup := by
      simp [List.nodup_append, hs.nodup, hc]
    have hperm : List.Perm (List.insertionSort (· ≤ ·) (l ++ [c])) (l ++ [c]) :=
      List.perm_insertionSort _ _
    have hsorted : List.Sorted (· ≤ ·) (List.insertionSort (· ≤ ·) (l ++ [c])) :=
      List.sorted_insertionSort _ _
    have hnd' : (List.insertionSort (· ≤ ·) (l ++ [c])).Nodup :=
      hperm.symm.nodup hnd
    refine ⟨List.Sorted.lt_of_le hsorted hnd', ?_, ?_⟩
    · intro hnil
      have hlen2 := hperm.length_eq
      rw [hnil] at hlen2
      simp at hlen2
    · intro x hx
      have hx2 : x ∈ l ++ [c] := hperm.mem_iff.mp hx
      simpa using hx2
  · simp only [if_neg hlen]
    have hl : l = [] := by
      cases l with
      | nil => rfl
      | cons a t => simp [List.length_append] at hlen
    subst hl
    refine ⟨by simp, by simp, by simp⟩

/-! ### pid-indexing invariant and root invariant of the POSIX fold -/

/-- Every map entry's record carries the key as its pid. -/
def MapPid (m : PMap) : Prop := ∀ k it, mget m k = some it → it.pid = k

theorem mapPid_nil : MapPid [] := by
  intro k it h
  simp [mget] at h

theorem mapPid_mset {m : PMap} {k : Nat} {v : PItem}
    (h : MapPid m) (hv : v.pid = k) : MapPid (mset m k v) := by
  intro k' it hit
  rw [mget_mset] at hit
  by_cases hk : k' = k
  · rw [if_pos hk] at hit
    cases hit
    rw [hv, hk]
  · rw [if_neg hk] at hit
    exact h k' it hit

theorem mapPid_addToTree {rootPid : Nat} {st : PosixState} {e : PsEntry}
    (h : MapPid st.map) : MapPid (addToTree rootPid st e).map := by
  cases h2 : mget st.map e.ppid with
  | none =>
    by_cases h1 : e.pid = rootPid
    · rw [addToTree_root_new h2 h1]
      exact mapPid_mset h rfl
    · rw [addToTree_skip h1 h2]
      exact h
  | some p =>
    rw [addToTree_parent h2]
    exact mapPid_mset (mapPid_mset h rfl) (h e.ppid p h2)

theorem mapPid_posix_foldl (rootPid : Nat) :
    ∀ (entries : List PsEntry) (st : PosixState), MapPid st.map →
      MapPid ((entries.foldl (addToTree rootPid) st).map) := by
  intro entries
  induction entries with
  | nil => intro st h; exact h
  | cons e es ih =>
    intro st h
    exact ih _ (mapPid_addToTree h)

theorem posix_foldl_root (rootPid : Nat) :
    ∀ (entries : List PsEntry) (st : PosixState),
      (st.root = none ∨ st.root = some rootPid) →
      ((entries.foldl (addToTree rootPid) st).root = none ∨
        (entries.foldl (addToTree rootPid) st).root = some rootPid) := by
  intro entries
  induction entries with
  | nil => intro st h; exact h
  | cons e es ih =>
    intro st h
    apply ih
    rw [addToTree_root_eq]
    by_cases h1 : e.pid = rootPid
    · right; rw [if_pos h1, h1]
    · rw [if_neg h1]; exact h

theorem posix_foldl_root_none (rootPid : Nat) :
    ∀ (entries : List PsEntry) (st : PosixState),
      st.root = none → (∀ e ∈ entries, e.pid ≠ rootPid) →
      (entries.foldl (addToTree rootPid) st).root = none := by
  intro entries
  induction entries with
  | nil => intro st h _; exact h
  | cons e es ih =>
    intro st h hne
    apply ih
    · rw [addToTree_root_eq, if_neg (hne e (by simp)), h]
    · intro e' he'
      exact hne e' (by simp [he'])

/-! ### Reading the object graph back as a tree -/

theorem ascChain_of_sorted : ∀ {l : List Nat},
    List.Sorted (· < ·) l → ascChain l = true := by
  intro l
  induction l with
  | nil => intro _; rfl
  | cons a t ih =>
    intro h
    cases t with
    | nil => rfl
    | cons b t' =>
      have hab : a < b := (List.sorted_cons.mp h).1 b (by simp)
      have ht : List.Sorted (· < ·) (b :: t') := (List.sorted_cons.mp h).2
      simp [ascChain, hab, ih ht]

theorem buildB_pids {m : PMap} (hm : MapPid m) :
    ∀ (fuel : Nat) (ps : List Nat) (ts : List PTree),
      buildB m fuel ps = some ts → ts.map PTree.pid = ps := by
  intro fuel
  induction fuel with
  | zero => intro ps ts h; simp [buildB] at h
  | succ f ih =>
    intro ps ts h
    cases ps with
    | nil =>
      simp [buildB] at h
      subst h
      rfl
    | cons p ps' =>
      simp only [buildB] at h
      split at h
      · simp at h
      next it hg =>
        split at h
        next c ts' hoc hr =>
          simp only [Option.some.injEq] at h
          subst h
          simp [PTree.pid, hm p it hg, ih ps' ts' hr]
        next => simp at h

theorem buildT_pid {m : PMap} {fuel p : Nat} {t : PTree} (hm : MapPid m)
    (h : buildT m fuel p = some t) : t.pid = p := by
  unfold buildT at h
  cases hb : buildB m fuel [p] with
  | none => rw [hb] at h; simp at h
  | some ts =>
    rw [hb] at h
    have hpids := buildB_pids hm fuel [p] ts hb
    cases ts with
    | nil => simp at h
    | cons t0 ts' =>
      cases ts' with
      | nil =>
        simp only [Option.some.injEq] at h
        subst h
        simpa using hpids
      | cons t1 ts'' => simp at h

/-- The per-record invariant that makes a read-out tree well formed. -/
def MapOK (m : PMap) : Prop :=
  MapPid m ∧ ∀ k it, mget m k = some it →
    it.children = none ∨
      ∃ l, it.children = some l ∧ l ≠ [] ∧ List.Sorted (· < ·) l

theorem buildB_treeOK {m : PMap} (hm : MapOK m) :
    ∀ (fuel : Nat) (ps : List Nat) (ts : List PTree),
      buildB m fuel ps = some ts → ∀ t ∈ ts, TreeOK t := by
  intro fuel
  induction fuel with
  | zero => intro ps ts h; simp [buildB] at h
  | succ f ih =>
    intro ps ts h
    cases ps with
    | nil => simp [buildB] at h; subst h; simp
    | cons p ps' =>
      simp only [buildB] at h
      split at h
      · simp at h
      next it hg =>
        split at h
        next c ts' hoc hr =>
          simp only [Option.some.injEq] at h
          subst h
          intro t ht
          rcases List.mem_cons.mp ht with rfl | ht'
          · -- the head node: its children value comes from `hoc`
            split at hoc
            next hcnone =>
              simp only [Option.some.injEq] at hoc
              subst hoc
              exact TreeOK.leaf _ _ _ _ _ _
            next l hcl =>
              cases hbl : buildB m f l with
              | none => rw [hbl] at hoc; simp at hoc
              | some cs =>
                rw [hbl] at hoc
                have hc2 : c = some cs := by simpa using hoc.symm
                subst hc2
                rcases hm.2 p it hg with hnone | ⟨l', hl', hne, hsort⟩
                · rw [hnone] at hcl; cases hcl
                · rw [hl'] at hcl
                  injection hcl with hll
                  subst hll
                  have hcs : cs.map PTree.pid = l' := buildB_pids hm.1 f l' cs hbl
                  apply TreeOK.branch
                  · intro hcs0
                    rw [hcs0] at hcs
                    exact hne hcs.symm
                  · rw [hcs]
                    exact ascChain_of_sorted hsort
                  · exact ih l' cs hbl
          · exact ih ps' ts' hr t ht'
        next => simp at h

/-! ### The incremental children invariant of the POSIX fold -/

/-- A record's children list is absent, or nonempty, strictly sorted and
drawn from the already-processed pids. -/
def ChildrenOK (seen : List Nat) (oc : Option (List Nat)) : Prop :=
  oc = none ∨
    ∃ l, oc = some l ∧ l ≠ [] ∧ List.Sorted (· < ·) l ∧ ∀ c ∈ l, c ∈ seen

def StInv (seen : List Nat) (m : PMap) : Prop :=
  (∀ k ∈ keys m, k ∈ seen) ∧
    ∀ k it, mget m k = some it → it.pid = k ∧ ChildrenOK seen it.children

theorem childrenOK_mono {seen seen' : List Nat} {oc : Option (List Nat)}
    (h : ChildrenOK seen oc) (hmono : ∀ x ∈ seen, x ∈ seen') :
    ChildrenOK seen' oc := by
  rcases h with h | ⟨l, hl, hne, hsort, hsub⟩
  · exact Or.inl h
  · exact Or.inr ⟨l, hl, hne, hsort, fun c hc => hmono c (hsub c hc)⟩

theorem stInv_mono {seen seen' : List Nat} {m : PMap}
    (h : StInv seen m) (hmono : ∀ x ∈ seen, x ∈ seen') : StInv seen' m :=
  ⟨fun k hk => hmono k (h.1 k hk),
   fun k it hit => ⟨(h.2 k it hit).1,
     childrenOK_mono (h.2 k it hit).2 hmono⟩⟩

theorem mem_keys_mset {m : PMap} {k0 k : Nat} {v : PItem}
    (h : k ∈ keys (mset m k0 v)) : k ∈ keys m ∨ k = k0 := by
  by_cases hm0 : k0 ∈ keys m
  · rw [keys_mset_of_mem v hm0] at h
    exact Or.inl h
  · rw [keys_mset_of_not_mem v hm0] at h
    rcases List.mem_append.mp h with h1 | h2
    · exact Or.inl h1
    · exact Or.inr (by simpa using h2)

theorem stInv_addToTree {rootPid : Nat} {st : PosixState} {e : PsEntry}
    {seen : List Nat} (hinv : StInv seen st.map) (hnew : e.pid ∉ seen) :
    StInv (seen ++ [e.pid]) (addToTree rootPid st e).map := by
  have hmono : ∀ x ∈ seen, x ∈ seen ++ [e.pid] := fun x hx => by simp [hx]
  cases h2 : mget st.map e.ppid with
  | none =>
    by_cases h1 : e.pid = rootPid
    · rw [addToTree_root_new h2 h1]
      constructor
      · intro k hk
        rcases mem_keys_mset hk with h | rfl
        · exact hmono k (hinv.1 k h)
        · simp
      · intro k it hit
        rw [mget_mset] at hit
        by_cases hk : k = e.pid
        · rw [if_pos hk] at hit
          cases hit
          exact ⟨hk.symm, Or.inl rfl⟩
        · rw [if_neg hk] at hit
          obtain ⟨hpid, hch⟩ := hinv.2 k it hit
          exact ⟨hpid, childrenOK_mono hch hmono⟩
    · rw [addToTree_skip h1 h2]
      exact stInv_mono hinv hmono
  | some p =>
    rw [addToTree_parent h2]
    obtain ⟨hppid, hpch⟩ := hinv.2 e.ppid p h2
    have hkid : ChildrenOK (seen ++ [e.pid])
        (some (insertKid (p.children.getD []) e.pid)) := by
      rcases hpch with hcn | ⟨l, hcl, hne, hsort, hsub⟩
      · rw [hcn]
        have hik := @insertKid_ok [] e.pid (by simp) (by simp)
        refine Or.inr ⟨_, rfl, hik.2.1, hik.1, ?_⟩
        intro c hcmem
        rcases hik.2.2 c hcmem with hc1 | hc2
        · simp at hc1
        · subst hc2; simp
      · rw [hcl]
        have hc_not : e.pid ∉ l := fun hmem => hnew (hsub _ hmem)
        have hik := insertKid_ok hsort hc_not
        refine Or.inr ⟨_, rfl, hik.2.1, hik.1, ?_⟩
        intro c hcmem
        rcases hik.2.2 c hcmem with hc1 | hc2
        · exact List.mem_append_left _ (hsub _ hc1)
        · subst hc2; simp
    constructor
    · intro k hk
      rcases mem_keys_mset hk with h | rfl
      · rcases mem_keys_mset h with h' | rfl
        · exact hmono k (hinv.1 k h')
        · simp
      · exact hmono _ (hinv.1 _ (mem_keys_of_mget h2))
    · intro k it hit
      rw [mget_mset] at hit
      by_cases hk : k = e.ppid
      · subst hk
        rw [if_pos rfl] at hit
        cases hit
        exact ⟨hppid, hkid⟩
      · rw [if_neg hk, mget_mset] at hit
        by_cases hk2 : k = e.pid
        · subst hk2
          rw [if_pos rfl] at hit
          cases hit
          exact ⟨rfl, Or.inl rfl⟩
        · rw [if_neg hk2] at hit
          obtain ⟨hpid, hch⟩ := hinv.2 k it hit
          exact ⟨hpid, childrenOK_mono hch hmono⟩

theorem stInv_foldl (rootPid : Nat) :
    ∀ (entries : List PsEntry) (st : PosixState) (seen : List Nat),
      (entries.map PsEntry.pid).Nodup →
      (∀ e ∈ entries, e.pid ∉ seen) →
      StInv seen st.map →
      StInv (seen ++ entries.map PsEntry.pid)
        ((entries.foldl (addToTree rootPid) st).map) := by
  intro entries
  induction entries with
  | nil => intro st seen _ _ h; simpa using h
  | cons e es ih =>
    intro st seen hnd hfresh hinv
    have hstep := @stInv_addToTree rootPid st e seen
      hinv (hfresh e (by simp))
    have hnd0 : e.pid ∉ es.map PsEntry.pid ∧ (es.map PsEntry.pid).Nodup :=
      List.nodup_cons.mp hnd
    have hfresh' : ∀ e' ∈ es, e'.pid ∉ seen ++ [e.pid] := by
      intro e' he' hmem
      rcases List.mem_append.mp hmem with h | h
      · exact hfresh e' (by simp [he']) h
      · have he'pid : e'.pid = e.pid := by simpa using h
        exact hnd0.1 (he'pid ▸ List.mem_map_of_mem PsEntry.pid he')
    have hres := ih _ _ hnd0.2 hfresh' hstep
    simpa [List.append_assoc] using hres

theorem mapOK_posix {entries : List PsEntry} {rootPid : Nat}
    (hnd : (entries.map PsEntry.pid).Nodup) :
    MapOK ((posixState entries rootPid).map) := by
  have hinit : StInv [] (([] : PMap)) := by
    constructor
    · intro k hk; simp [keys] at hk
    · intro k it hit; simp [mget] at hit
  have h := stInv_foldl rootPid entries ⟨none, []⟩ [] hnd (by simp) hinit
  constructor
  · exact fun k it hit => (h.2 k it hit).1
  · intro k it hit
    rcases (h.2 k it hit).2 with hc | ⟨l, hl, hne, hsort, _⟩
    · exact Or.inl hc
    · exact Or.inr ⟨l, hl, hne, hsort⟩

theorem buildT_treeOK {m : PMap} {fuel p : Nat} {t : PTree} (hm : MapOK m)
    (h : buildT m fuel p = some t) : TreeOK t := by
  unfold buildT at h
  cases hb : buildB m fuel [p] with
  | none => rw [hb] at h; simp at h
  | some ts =>
    rw [hb] at h
    cases ts with
    | nil => simp at h
    | cons t0 ts' =>
      cases ts' with
      | nil =>
        simp only [Option.some.injEq] at h
        subst h
        exact buildB_treeOK hm fuel [p] [t0] hb t0 (by simp)
      | cons t1 ts'' => simp at h

/-! ### Invariants of the Windows pipeline -/

/-- After the collection pass every record carries its key as pid and has
no children yet. -/
def CollectInv (m : PMap) : Prop :=
  (∀ k it, mget m k = some it → it.pid = k ∧ it.children = none) ∧
    (keys m).Nodup

theorem mkWinRecord_pid (item : WinRaw) :
    (mkWinRecord item).pid = item.processId := rfl

theorem mkWinRecord_children (item : WinRaw) :
    (mkWinRecord item).children = none := rfl

theorem collectInv_step {m : PMap} {item : WinRaw} (h : CollectInv m) :
    CollectInv (collectStep m item) := by
  unfold collectStep
  by_cases ht : item.type = WinType.processInfo
  · rw [if_pos ht]
    constructor
    · intro k it hit
      rw [mget_mset] at hit
      split at hit
      next hk =>
        have hit2 : mkWinRecord item = it := Option.some.inj hit
        subst hit2
        exact ⟨mkWinRecord_pid item ▸ hk.symm, mkWinRecord_children item⟩
      next hk => exact h.1 k it hit
    · exact nodup_keys_mset _ h.2
  · rw [if_neg ht]
    exact h

theorem collectInv_windowsCollect (items : List WinRaw) :
    CollectInv (windowsCollect items) := by
  have hgen : ∀ (l : List WinRaw) (m : PMap), CollectInv m →
      CollectInv (l.foldl collectStep m) := by
    intro l
    induction l with
    | nil => intro m h; exact h
    | cons x xs ih => intro m h; exact ih _ (collectInv_step h)
  refine hgen items [] ⟨?_, by simp [keys]⟩
  intro k it hit
  simp [mget] at hit

/-- During the linking pass: pids index the map, and every present
children list is nonempty, duplicate-free and drawn from the
already-processed keys. -/
def WInv (seen : List Nat) (m : PMap) : Prop :=
  ∀ k it, mget m k = some it →
    it.pid = k ∧
      (it.children = none ∨
        ∃ l, it.children = some l ∧ l ≠ [] ∧ l.Nodup ∧ ∀ c ∈ l, c ∈ seen)

theorem linkStep_no_item {acc : PMap} {k : Nat}
    (h : mget acc k = none) : linkStep acc k = acc := by
  simp [linkStep, h]

theorem linkStep_no_parent {acc : PMap} {k : Nat} {item : PItem}
    (h : mget acc k = some item) (h2 : mget acc item.ppid = none) :
    linkStep acc k = acc := by
  simp [linkStep, h, h2]

theorem linkStep_parent {acc : PMap} {k : Nat} {item parent : PItem}
    (h : mget acc k = some item) (h2 : mget acc item.ppid = some parent) :
    linkStep acc k =
      mset acc item.ppid
        { parent with
          children := some ((parent.children.getD []) ++ [item.pid]) } := by
  simp [linkStep, h, h2]

theorem wInv_mono {seen seen' : List Nat} {m : PMap}
    (h : WInv seen m) (hmono : ∀ x ∈ seen, x ∈ seen') : WInv seen' m := by
  intro k it hit
  obtain ⟨hpid, hch⟩ := h k it hit
  refine ⟨hpid, ?_⟩
  rcases hch with hc | ⟨l, hl, hne, hnd, hsub⟩
  · exact Or.inl hc
  · exact Or.inr ⟨l, hl, hne, hnd, fun c hc => hmono c (hsub c hc)⟩

theorem wInv_linkStep {seen : List Nat} {acc : PMap} {k : Nat}
    (hinv : WInv seen acc) (hfresh : k ∉ seen) :
    WInv (seen ++ [k]) (linkStep acc k) := by
  have hmono : ∀ x ∈ seen, x ∈ seen ++ [k] := fun x hx => by simp [hx]
  cases hgk : mget acc k with
  | none => rw [linkStep_no_item hgk]; exact wInv_mono hinv hmono
  | some item =>
    cases hgp : mget acc item.ppid with
    | none => rw [linkStep_no_parent hgk hgp]; exact wInv_mono hinv hmono
    | some parent =>
      rw [linkStep_parent hgk hgp]
      have hitem : item.pid = k := (hinv k item hgk).1
      obtain ⟨hppid, hpch⟩ := hinv item.ppid parent hgp
      intro k' it hit
      rw [mget_mset] at hit
      by_cases hk' : k' = item.ppid
      · subst hk'
        rw [if_pos rfl] at hit
        cases hit
        refine ⟨hppid, Or.inr ⟨_, rfl, ?_, ?_, ?_⟩⟩
        · simp
        · rcases hpch with hc | ⟨l, hl, hne, hnd, hsub⟩
          · rw [hc]
            simp
          · rw [hl]
            have hknl : k ∉ l := fun hmem => hfresh (hsub _ hmem)
            rw [hitem]
            simp [List.nodup_append, hnd, hknl]
        · intro c hc
          rcases List.mem_append.mp hc with h1 | h2
          · rcases hpch with hcn | ⟨l, hl, _, _, hsub⟩
            · rw [hcn] at h1; simp at h1
            · rw [hl] at h1
              exact hmono c (hsub c (by simpa using h1))
          · rw [hitem] at h2
            simp at h2
            simp [h2]
      · rw [if_neg hk'] at hit
        obtain ⟨hpid, hch⟩ := hinv k' it hit
        refine ⟨hpid, ?_⟩
        rcases hch with hc | ⟨l, hl, hne, hnd, hsub⟩
        · exact Or.inl hc
        · exact Or.inr ⟨l, hl, hne, hnd, fun c hcm => hmono c (hsub c hcm)⟩

theorem wInv_foldl :
    ∀ (ks : List Nat) (acc : PMap) (seen : List Nat),
      ks.Nodup → (∀ k ∈ ks, k ∉ seen) → WInv seen acc →
      WInv (seen ++ ks) (ks.foldl linkStep acc) := by
  intro ks
  induction ks with
  | nil => intro acc seen _ _ h; simpa using h
  | cons k ks' ih =>
    intro acc seen hnd hfresh hinv
    have hnd0 := List.nodup_cons.mp hnd
    have hstep := wInv_linkStep hinv (hfresh k (by simp))
    have hfresh' : ∀ k' ∈ ks', k' ∉ seen ++ [k] := by
      intro k' hk' hmem
      rcases List.mem_append.mp hmem with h | h
      · exact hfresh k' (by simp [hk']) h
      · have hk'k : k' = k := by simpa using h
        exact hnd0.1 (hk'k ▸ hk')
    have hres := ih _ _ hnd0.2 hfresh' hstep
    simpa [List.append_assoc] using hres

/-- `mget` through the sorting pass. -/
theorem mget_windowsSort : ∀ (m : PMap) (k : Nat),
    mget (windowsSort m) k =
      (mget m k).map fun it =>
        { it with children := it.children.map (List.insertionSort (· ≤ ·)) } := by
  intro m
  induction m with
  | nil => intro k; rfl
  | cons kv m ih =>
    intro k
    obtain ⟨k0, v0⟩ := kv
    show mget ((k0, _) :: windowsSort m) k = _
    by_cases hk : k = k0
    · subst hk
      simp [mget]
    · simp only [mget, if_neg hk]
      exact ih k

theorem mapOK_windowsSort {seen : List Nat} {m : PMap}
    (h : WInv seen m) : MapOK (windowsSort m) := by
  constructor
  · intro k it hit
    rw [mget_windowsSort] at hit
    cases hg : mget m k with
    | none => rw [hg] at hit; simp at hit
    | some it0 =>
      rw [hg] at hit
      have hit2 : { it0 with
          children := it0.children.map (List.insertionSort (· ≤ ·)) } = it := by
        simpa using hit
      cases hit2
      exact (h k it0 hg).1
  · intro k it hit
    rw [mget_windowsSort] at hit
    cases hg : mget m k with
    | none => rw [hg] at hit; simp at hit
    | some it0 =>
      rw [hg] at hit
      have hit2 : { it0 with
          children := it0.children.map (List.insertionSort (· ≤ ·)) } = it := by
        simpa using hit
      cases hit2
      rcases (h k it0 hg).2 with hc | ⟨l, hl, hne, hnd, _⟩
      · rw [hc]
        exact Or.inl rfl
      · rw [hl]
        refine Or.inr ⟨_, rfl, ?_, ?_⟩
        · intro h0
          have hlen := (List.perm_insertionSort (· ≤ ·) l).length_eq
          rw [h0] at hlen
          simp at hlen
          exact hne (List.length_eq_zero.mp hlen.symm)
        · have hperm := List.perm_insertionSort (· ≤ ·) l
          exact List.Sorted.lt_of_le
            (List.sorted_insertionSort _ l) (hperm.symm.nodup hnd)

theorem windows_mapOK (items : List WinRaw) :
    MapOK (windowsSort (windowsLink (windowsCollect items))) := by
  obtain ⟨hbase, hnd⟩ := collectInv_windowsCollect items
  have hinv0 : WInv [] (windowsCollect items) := by
    intro k it hit
    exact ⟨(hbase k it hit).1, Or.inl (hbase k it hit).2⟩
  have hlink := wInv_foldl (keys (windowsCollect items))
    (windowsCollect items) [] hnd (by simp) hinv0
  exact mapOK_windowsSort hlink

/-! ### Key preservation and the shape of `windowsResult` -/

theorem keys_linkStep (acc : PMap) (k : Nat) :
    keys (linkStep acc k) = keys acc := by
  cases hgk : mget acc k with
  | none => rw [linkStep_no_item hgk]
  | some item =>
    cases hgp : mget acc item.ppid with
    | none => rw [linkStep_no_parent hgk hgp]
    | some parent =>
      rw [linkStep_parent hgk hgp]
      exact keys_mset_of_mem _ (mem_keys_of_mget hgp)

theorem keys_foldl_linkStep :
    ∀ (ks : List Nat) (acc : PMap), keys (ks.foldl linkStep acc) = keys acc := by
  intro ks
  induction ks with
  | nil => intro acc; rfl
  | cons k ks' ih =>
    intro acc
    rw [List.foldl_cons, ih, keys_linkStep]

theorem keys_windowsSort : ∀ m : PMap, keys (windowsSort m) = keys m := by
  intro m
  induction m with
  | nil => rfl
  | cons kv m ih =>
    obtain ⟨k0, v0⟩ := kv
    show k0 :: keys (windowsSort m) = k0 :: keys m
    rw [ih]

theorem windowsResult_rootAbsent {items : List WinRaw} {rootPid : Nat}
    (h : mget (windowsCollect items) rootPid = none) :
    windowsResult items rootPid =
      .error ("Root process " ++ toString rootPid ++ " not found") := by
  simp [windowsResult, h]

theorem windowsResult_ok_inv {items : List WinRaw} {rootPid : Nat}
    {it : PItem} {m' : PMap}
    (h : windowsResult items rootPid = .ok (it, m')) :
    m' = windowsSort (windowsLink (windowsCollect items)) ∧
      mget m' rootPid = some it := by
  simp only [windowsResult] at h
  split at h
  · cases h
  next it0 hg0 =>
    split at h
    next it1 hg1 =>
      injection h with h2
      injection h2 with h3 h4
      subst h3
      subst h4
      exact ⟨rfl, hg1⟩
    next => cases h

/-! ### The self-parent behaviour of the linking pass (claim C10) -/

/-- pid and ppid of every record agree with the base map (only children
lists change during linking). -/
def FieldsAgree (base acc : PMap) : Prop :=
  ∀ k, (mget acc k).map (fun it => (it.pid, it.ppid)) =
    (mget base k).map (fun it => (it.pid, it.ppid))

theorem fieldsAgree_linkStep {base acc : PMap} {k : Nat}
    (h : FieldsAgree base acc) : FieldsAgree base (linkStep acc k) := by
  cases hgk : mget acc k with
  | none => rw [linkStep_no_item hgk]; exact h
  | some item =>
    cases hgp : mget acc item.ppid with
    | none => rw [linkStep_no_parent hgk hgp]; exact h
    | some parent =>
      rw [linkStep_parent hgk hgp]
      intro k'
      rw [mget_mset]
      by_cases hk' : k' = item.ppid
      · subst hk'
        rw [if_pos rfl]
        have hp := h item.ppid
        rw [hgp] at hp
        simpa using hp
      · rw [if_neg hk']
        exact h k'

theorem fieldsAgree_foldl {base : PMap} :
    ∀ (ks : List Nat) (acc : PMap), FieldsAgree base acc →
      FieldsAgree base (ks.foldl linkStep acc) := by
  intro ks
  induction ks with
  | nil => intro acc h; exact h
  | cons k ks' ih => intro acc h; exact ih _ (fieldsAgree_linkStep h)

/-- The map contains a record that lists `p` among the children of the
record stored at key `p`. -/
def SelfChild (m : PMap) (p : Nat) : Prop :=
  ∃ it l, mget m p = some it ∧ it.children = some l ∧ p ∈ l

theorem selfChild_linkStep {acc : PMap} {p k : Nat}
    (h : SelfChild acc p) : SelfChild (linkStep acc k) p := by
  obtain ⟨it0, l0, hg0, hc0, hmem0⟩ := h
  cases hgk : mget acc k with
  | none => rw [linkStep_no_item hgk]; exact ⟨it0, l0, hg0, hc0, hmem0⟩
  | some item =>
    cases hgp : mget acc item.ppid with
    | none => rw [linkStep_no_parent hgk hgp]; exact ⟨it0, l0, hg0, hc0, hmem0⟩
    | some parent =>
      rw [linkStep_parent hgk hgp]
      by_cases hq : item.ppid = p
      · have hpe : parent = it0 := by
          rw [hq] at hgp
          exact Option.some.inj (hgp.symm.trans hg0)
        subst hpe
        refine ⟨{ parent with
            children := some ((parent.children.getD []) ++ [item.pid]) },
          (parent.children.getD []) ++ [item.pid], ?_, rfl, ?_⟩
        · rw [mget_mset, if_pos hq.symm]
        · rw [hc0]
          simp only [Option.getD_some]
          exact List.mem_append_left _ hmem0
      · refine ⟨it0, l0, ?_, hc0, hmem0⟩
        rw [mget_mset, if_neg (fun hh => hq hh.symm)]
        exact hg0

theorem selfChild_foldl {p : Nat} :
    ∀ (ks : List Nat) (acc : PMap), SelfChild acc p →
      SelfChild (ks.foldl linkStep acc) p := by
  intro ks
  induction ks with
  | nil => intro acc h; exact h
  | cons k ks' ih => intro acc h; exact ih _ (selfChild_linkStep h)

theorem selfChild_windowsSort {m : PMap} {p : Nat}
    (h : SelfChild m p) : SelfChild (windowsSort m) p := by
  obtain ⟨it, l, hg, hc, hm⟩ := h
  refine ⟨{ it with
      children := it.children.map (List.insertionSort (· ≤ ·)) },
    List.insertionSort (· ≤ ·) l, ?_, ?_, ?_⟩
  · rw [mget_windowsSort, hg]
    rfl
  · show it.children.map _ = _
    rw [hc]
    rfl
  · exact ((List.perm_insertionSort _ l).mem_iff).mpr hm

theorem selfChild_trigger {acc : PMap} {p : Nat} {item : PItem}
    (hg : mget acc p = some item)
    (hpid : item.pid = p) (hppid : item.ppid = p) :
    SelfChild (linkStep acc p) p := by
  have hgp : mget acc item.ppid = some item := by rw [hppid]; exact hg
  rw [linkStep_parent hg hgp]
  refine ⟨{ item with
      children := some ((item.children.getD []) ++ [item.pid]) },
    (item.children.getD []) ++ [item.pid], ?_, rfl, ?_⟩
  · rw [mget_mset, if_pos hppid.symm]
  · rw [hpid]
    simp

/-! ### Concrete data used by the claims and their witnesses -/

/-- The synthetic POSIX listing of claim C1: pid 1 under 0, pids 2 and 3
under 1, pid 4 under 2. -/
def demoEntries : List PsEntry :=
  [⟨1, 0, "c1", 0, 0⟩, ⟨2, 1, "c2", 0, 0⟩, ⟨3, 1, "c3", 0, 0⟩, ⟨4, 2, "c4", 0, 0⟩]

/-- The tree claim C1 predicts for `demoEntries`. -/
def demoTree : PTree :=
  .node "c1" "c1" 1 0 (some 0) 0 (some
    [.node "c2" "c2" 2 1 (some 0) 0
        (some [.node "c4" "c4" 4 2 (some 0) 0 none]),
     .node "c3" "c3" 3 1 (some 0) 0 none])

def demoRootEntries : List PsEntry := [⟨1, 0, "c1", 0, 0⟩]

def demoRootTree : PTree := .node "c1" "c1" 1 0 (some 0) 0 none

def demoWin : List WinRaw :=
  [⟨.processInfo, "n", 1, 0, "cmd", 0, none, 0⟩]

def demoWinRoot : PItem := ⟨"cmd", "cmd", 1, 0, some (-1), 0, none⟩

def demoWinTree : PTree := .node "cmd" "cmd" 1 0 (some (-1)) 0 none

def c5item : WinRaw := ⟨.processInfo, "n", 7, 1, "c", 0, some [], 0⟩

def c5witItem : WinRaw := ⟨.processInfo, "n", 7, 1, "c", 0, some [1, 2], 0⟩

def c5noneItem : WinRaw := ⟨.processInfo, "n", 8, 1, "c", 0, none, 0⟩

def c6cmd : List Char := str "--type=renderer --disable-blink-features=Auxclick"

def c10items : List WinRaw :=
  [⟨.processInfo, "n", 1, 1, "selfcmd", 0, none, 0⟩]

def c10rec : PItem := ⟨"selfcmd", "selfcmd", 1, 1, some (-1), 0, none⟩

/-! ### The claims -/

/-- Claim C1: for the synthetic listing `{1→0, 2→1, 3→1, 4→2}` processed
with root pid 1, the tree assembly produces root 1 with children `[2, 3]`
in ascending pid order, pid 2 with exactly the child `[4]`, and nothing
else in the returned tree. -/
theorem claim_C1 : posixResult demoEntries 1 = some demoTree := rfl

/-- Claim C2: whenever `listProcesses` resolves successfully with a
defined record — on the POSIX path or the Windows path — the root
record's pid equals the requested root pid. -/
theorem claim_C2 :
    (∀ (entries : List PsEntry) (rootPid : Nat) (t : PTree),
        posixResult entries rootPid = some t → t.pid = rootPid) ∧
    (∀ (items : List WinRaw) (rootPid : Nat) (it : PItem) (m : PMap),
        windowsResult items rootPid = .ok (it, m) → it.pid = rootPid) := by
  constructor
  · intro entries rootPid t h
    have hroot : (posixState entries rootPid).root = none ∨
        (posixState entries rootPid).root = some rootPid :=
      posix_foldl_root rootPid entries ⟨none, []⟩ (Or.inl rfl)
    have hpid : MapPid (posixState entries rootPid).map :=
      mapPid_posix_foldl rootPid entries ⟨none, []⟩ mapPid_nil
    unfold posixResult at h
    cases hst : posixState entries rootPid with
    | mk root map =>
      rw [hst] at h hroot hpid
      cases root with
      | none => exact Option.noConfusion h
      | some r =>
        have hr : r = rootPid := by
          rcases hroot with h0 | h0
          · exact Option.noConfusion h0
          · exact Option.some.inj h0
        have ht : t.pid = r := buildT_pid hpid h
        rw [ht, hr]
  · intro items rootPid it m h
    obtain ⟨hm, hg⟩ := windowsResult_ok_inv h
    subst hm
    exact (windows_mapOK items).1 rootPid it hg

/-- Claim C2 witness at concrete inputs for both platform paths. -/
theorem claim_C2_witness :
    posixResult demoRootEntries 1 = some demoRootTree ∧
    PTree.pid demoRootTree = 1 ∧
    windowsResult demoWin 1 =
      .ok (demoWinRoot, windowsSort (windowsLink (windowsCollect demoWin))) ∧
    demoWinRoot.pid = 1 :=
  ⟨rfl, claim_C2.1 demoRootEntries 1 demoRootTree rfl,
   rfl, claim_C2.2 demoWin 1 demoWinRoot
     (windowsSort (windowsLink (windowsCollect demoWin))) rfl⟩

/-- Claim C3: in every record of a returned tree (either platform path),
the `children` field is present iff there is at least one child, and a
present children sequence is strictly ascending by pid.  On the POSIX
path the listing is assumed to carry pairwise distinct pids, as real
`ps` output does. -/
theorem claim_C3 :
    (∀ (entries : List PsEntry) (rootPid : Nat) (t : PTree),
        (entries.map PsEntry.pid).Nodup →
        posixResult entries rootPid = some t → TreeOK t) ∧
    (∀ (items : List WinRaw) (rootPid : Nat) (t : PTree),
        windowsTree items rootPid = some t → TreeOK t) := by
  constructor
  · intro entries rootPid t hnd h
    have hOK : MapOK (posixState entries rootPid).map :=
      mapOK_posix hnd
    unfold posixResult at h
    cases hst : posixState entries rootPid with
    | mk root map =>
      rw [hst] at h hOK
      cases root with
      | none => exact Option.noConfusion h
      | some r => exact buildT_treeOK hOK h
  · intro items rootPid t h
    unfold windowsTree at h
    cases hr : windowsResult items rootPid with
    | error e =>
      rw [hr] at h
      exact Option.noConfusion h
    | ok pr =>
      obtain ⟨it, linked⟩ := pr
      rw [hr] at h
      obtain ⟨hm, _⟩ := windowsResult_ok_inv hr
      subst hm
      exact buildT_treeOK (windows_mapOK items) h

/-- Claim C3 witness: concrete trees from both paths. -/
theorem claim_C3_witness :
    (demoEntries.map PsEntry.pid).Nodup ∧
    posixResult demoEntries 1 = some demoTree ∧ TreeOK demoTree ∧
    windowsTree demoWin 1 = some demoWinTree ∧ TreeOK demoWinTree :=
  ⟨by decide, rfl, claim_C3.1 demoEntries 1 demoTree (by decide) rfl,
   rfl, claim_C3.2 demoWin 1 demoWinTree rfl⟩

/-- Claim C4: on the Windows path a root pid missing from the fully built
map fails with an error naming the pid; on the POSIX path a root pid that
never matched resolves successfully with an absent (`undefined`)
result. -/
theorem claim_C4 :
    (∀ (items : List WinRaw) (rootPid : Nat),
        mget (windowsCollect items) rootPid = none →
        windowsResult items rootPid =
          .error ("Root process " ++ toString rootPid ++ " not found")) ∧
    (∀ (entries : List PsEntry) (rootPid : Nat),
        (∀ e ∈ entries, e.pid ≠ rootPid) →
        posixResult entries rootPid = none) := by
  constructor
  · intro items rootPid h
    exact windowsResult_rootAbsent h
  · intro entries rootPid h
    have hroot : (posixState entries rootPid).root = none :=
      posix_foldl_root_none rootPid entries ⟨none, []⟩ rfl h
    unfold posixResult
    cases hst : posixState entries rootPid with
    | mk root map =>
      rw [hst] at hroot
      cases hroot
      rfl

/-- Claim C4 witness: an empty Windows snapshot with root 5, and a POSIX
listing that never mentions root 5. -/
theorem claim_C4_witness :
    mget (windowsCollect []) 5 = none ∧
    windowsResult [] 5 = .error ("Root process " ++ toString 5 ++ " not found") ∧
    (∀ e ∈ demoRootEntries, e.pid ≠ 5) ∧
    posixResult demoRootEntries 5 = none :=
  ⟨rfl, claim_C4.1 [] 5 rfl, by decide,
   claim_C4.2 demoRootEntries 5 (by decide)⟩

/-- Claim C5 counterexample: a snapshot record with an empty CPU-sample
array.  JS `if (item.cpuLoad)` is true for an empty array, so the code
computes `0/0` (`NaN`, modelled `none`), not the `-1` the claim
predicts. -/
theorem claim_C5_counterexample :
    c5item.cpuLoad = some [] ∧ (mkWinRecord c5item).load ≠ some (-1) := by
  constructor
  · rfl
  · decide

/-- Claim C5 (amended): the stored load is the arithmetic mean of the
sample array when the array is present and nonempty, `-1` when the array
is absent, and `NaN` (modelled `none`) when it is present but empty. -/
theorem claim_C5 :
    (∀ (item : WinRaw) (samples : List ℚ), item.cpuLoad = some samples →
        samples ≠ [] →
        (mkWinRecord item).load = some (samples.sum / samples.length)) ∧
    (∀ item : WinRaw, item.cpuLoad = none →
        (mkWinRecord item).load = some (-1)) ∧
    (∀ item : WinRaw, item.cpuLoad = some [] →
        (mkWinRecord item).load = none) := by
  refine ⟨?_, ?_, ?_⟩
  · intro item samples hc hne
    have hl : (mkWinRecord item).load =
        jsDivNat (samples.foldl (· + ·) 0) samples.length := by
      show (match item.cpuLoad with
        | some s => jsDivNat (s.foldl (· + ·) 0) s.length
        | none => some (-1)) = _
      rw [hc]
    rw [hl, jsDivNat,
      if_neg (fun h0 => hne (List.length_eq_zero.mp h0)),
      ← List.sum_eq_foldl]
  · intro item hc
    show (match item.cpuLoad with
      | some s => jsDivNat (s.foldl (· + ·) 0) s.length
      | none => some (-1)) = _
    rw [hc]
  · intro item hc
    show (match item.cpuLoad with
      | some s => jsDivNat (s.foldl (· + ·) 0) s.length
      | none => some (-1)) = _
    rw [hc]
    rfl

/-- Claim C5 witness: each amended case at a concrete record. -/
theorem claim_C5_witness :
    c5witItem.cpuLoad = some [(1 : ℚ), 2] ∧ (([(1 : ℚ), 2] : List ℚ) ≠ []) ∧
    (mkWinRecord c5witItem).load =
      some ((([(1 : ℚ), 2] : List ℚ).sum) / (([(1 : ℚ), 2] : List ℚ).length)) ∧
    c5noneItem.cpuLoad = none ∧ (mkWinRecord c5noneItem).load = some (-1) ∧
    c5item.cpuLoad = some [] ∧ (mkWinRecord c5item).load = none :=
  ⟨rfl, by decide, claim_C5.1 c5witItem [1, 2] rfl (by decide),
   rfl, claim_C5.2.1 c5noneItem rfl,
   rfl, claim_C5.2.2 c5item rfl⟩

/-- Claim C6: with none of the four Windows-signature rules matching, a
command line whose `--type=` capture is `v` classifies as `window` when
`v` is `renderer` and the Auxclick flag is present, `shared-process` when
`v` is `renderer` without the flag, and `v` verbatim otherwise; in
particular `--type=gpu-process` classifies as `gpu-process`. -/
theorem claim_C6 :
    (∀ (cmd v : List Char),
        occurs (str "\\watcher\\win32\\CodeHelper.exe") cmd = false →
        occurs (str "--crashes-directory") cmd = false →
        occurs (str "\\pipe\\winpty-control") cmd = false →
        occurs (str "conhost.exe") cmd = false →
        findTypeAux cmd = some v →
        findNameL cmd =
          (if v = str "renderer" then
            (if occurs (str "--disable-blink-features=Auxclick") cmd then
              str "window" else str "shared-process")
          else v)) ∧
    findName "--type=gpu-process" = "gpu-process" := by
  constructor
  · intro cmd v h1 h2 h3 h4 hv
    simp [findNameL, h1, h2, h3, h4, hv]
  · rfl

/-- Claim C6 witness: the renderer command line with the Auxclick flag. -/
theorem claim_C6_witness :
    occurs (str "\\watcher\\win32\\CodeHelper.exe") c6cmd = false ∧
    occurs (str "--crashes-directory") c6cmd = false ∧
    occurs (str "\\pipe\\winpty-control") c6cmd = false ∧
    occurs (str "conhost.exe") c6cmd = false ∧
    findTypeAux c6cmd = some (str "renderer") ∧
    findNameL c6cmd =
      (if (str "renderer") = str "renderer" then
        (if occurs (str "--disable-blink-features=Auxclick") c6cmd then
          str "window" else str "shared-process")
      else str "renderer") :=
  ⟨by decide, by decide, by decide, by decide, by decide,
   claim_C6.1 c6cmd (str "renderer")
     (by decide) (by decide) (by decide) (by decide) (by decide)⟩

/-- Claim C7: `node foo.js bar.js` already starts with the runtime prefix
and is returned unchanged; `/usr/bin/x foo.js` is rewritten to exactly
`electron_node foo.js `. -/
theorem claim_C7 :
    findName "node foo.js bar.js" = "node foo.js bar.js" ∧
    findName "/usr/bin/x foo.js" = "electron_node foo.js " := ⟨rfl, rfl⟩

/-- Claim C8 counterexample: the code's watcher label carries a trailing
space, so it is not exactly `"watcherService"`. -/
theorem claim_C8_counterexample :
    occurs (str "\\watcher\\win32\\CodeHelper.exe")
      (str "C:\\x\\watcher\\win32\\CodeHelper.exe") = true ∧
    findName "C:\\x\\watcher\\win32\\CodeHelper.exe" ≠ "watcherService" := by
  exact ⟨by decide, by decide⟩

/-- Claim C8 (amended): every command line matching the file-watcher
signature classifies as `"watcherService "` (with the code's trailing
space), and the rule has priority over every other rule: no other
hypothesis is needed. -/
theorem claim_C8 (cmd : String)
    (h : occurs (str "\\watcher\\win32\\CodeHelper.exe") cmd.data = true) :
    findName cmd = "watcherService " := by
  simp only [findName, findNameL, h, if_true]
  rfl

/-- Claim C8 witness. -/
theorem claim_C8_witness :
    occurs (str "\\watcher\\win32\\CodeHelper.exe")
      (str "C:\\s\\watcher\\win32\\CodeHelper.exe") = true ∧
    findName "C:\\s\\watcher\\win32\\CodeHelper.exe" = "watcherService " :=
  ⟨by decide, claim_C8 "C:\\s\\watcher\\win32\\CodeHelper.exe" (by decide)⟩

/-- Claim C10: a collected snapshot record whose stored parent pid equals
its own pid is appended to its own children list by the linking pass, so
the returned structure contains a record that is its own child (the
object graph is cyclic there, not a tree). -/
theorem claim_C10 (items : List WinRaw) (p : Nat) (it0 : PItem)
    (hbase : mget (windowsCollect items) p = some it0) (hself : it0.ppid = p) :
    ∃ it l,
      mget (windowsSort (windowsLink (windowsCollect items))) p = some it ∧
        it.children = some l ∧ p ∈ l := by
  obtain ⟨hfields, hnd⟩ := collectInv_windowsCollect items
  have hpid0 : it0.pid = p := (hfields p it0 hbase).1
  have hp : p ∈ keys (windowsCollect items) := mem_keys_of_mget hbase
  obtain ⟨ks1, ks2, hsplit⟩ := List.append_of_mem hp
  have hlink : windowsLink (windowsCollect items) =
      ks2.foldl linkStep
        (linkStep (ks1.foldl linkStep (windowsCollect items)) p) := by
    rw [windowsLink, hsplit, List.foldl_append, List.foldl_cons]
  have hagree : FieldsAgree (windowsCollect items)
      (ks1.foldl linkStep (windowsCollect items)) :=
    fieldsAgree_foldl ks1 _ (fun k => rfl)
  have hacc : ∃ it1, mget (ks1.foldl linkStep (windowsCollect items)) p =
      some it1 ∧ it1.pid = p ∧ it1.ppid = p := by
    have hpair := hagree p
    rw [hbase] at hpair
    cases hg1 : mget (ks1.foldl linkStep (windowsCollect items)) p with
    | none => rw [hg1] at hpair; simp at hpair
    | some it1 =>
      rw [hg1] at hpair
      simp only [Option.map] at hpair
      have hpair2 : (it1.pid, it1.ppid) = (it0.pid, it0.ppid) :=
        Option.some.inj hpair
      have hfst : it1.pid = it0.pid := congrArg Prod.fst hpair2
      have hsnd : it1.ppid = it0.ppid := congrArg Prod.snd hpair2
      exact ⟨it1, rfl, hfst.trans hpid0, hsnd.trans hself⟩
  obtain ⟨it1, hg1, hpid1, hppid1⟩ := hacc
  have htrig := selfChild_trigger hg1 hpid1 hppid1
  have hafter := selfChild_foldl ks2 _ htrig
  rw [← hlink] at hafter
  exact selfChild_windowsSort hafter

/-- Claim C10 witness: a single snapshot record that is its own parent. -/
theorem claim_C10_witness :
    mget (windowsCollect c10items) 1 = some c10rec ∧ c10rec.ppid = 1 ∧
    (∃ it l,
      mget (windowsSort (windowsLink (windowsCollect c10items))) 1 = some it ∧
        it.children = some l ∧ 1 ∈ l) :=
  ⟨by decide, rfl, claim_C10 c10items 1 c10rec (by decide) rfl⟩


/-! ### Claim C9: the POSIX line parser -/

theorem head_false_app (p : Char → Bool) (a : Char) (l l' : List Char)
    (ha : p a = false) :
    ∀ c, ((a :: l) ++ l').head? = some c → p c = false := by
  intro c hc
  have hac : a = c := by simpa using hc
  subst hac
  exact ha

theorem head_false_cons (p : Char → Bool) (a : Char) (l : List Char)
    (ha : p a = false) :
    ∀ c, (a :: l).head? = some c → p c = false := by
  intro c hc
  have hac : a = c := by simpa using hc
  subst hac
  exact ha

theorem trimJS_sandwich (w0 core w5 : List Char) (hne : core ≠ [])
    (hw0 : ∀ c ∈ w0, wsB c = true) (hw5 : ∀ c ∈ w5, wsB c = true)
    (hhead : ∀ c, core.head? = some c → wsB c = false)
    (hlast : ∀ c, core.getLast? = some c → wsB c = false) :
    trimJS (w0 ++ (core ++ w5)) = core := by
  unfold trimJS
  rw [dropWhile_run wsB w0 (core ++ w5) hw0]
  have h1 : (core ++ w5).dropWhile wsB = core ++ w5 := by
    apply dropWhile_head_false
    intro c hc
    cases core with
    | nil => exact absurd rfl hne
    | cons a l =>
      apply head_false_app wsB a l w5 _ c hc
      exact hhead a rfl
  rw [h1, List.reverse_append]
  rw [dropWhile_run wsB w5.reverse core.reverse
    (fun c hc => hw5 c (List.mem_reverse.mp hc))]
  rw [dropWhile_head_false wsB core.reverse
    (fun c hc => hlast c (by rwa [List.head?_reverse] at hc))]
  exact List.reverse_reverse core

/-- Claim C9: every well-formed `ps` output line (pid, ppid, decimal
percent CPU, decimal percent memory, command), with arbitrary leading and
trailing whitespace, parses to exactly those five fields; and a line the
pattern rejects is a no-op in the line loop, leaving the other lines'
processing unchanged. -/
theorem claim_C9 :
    (∀ (w0 w5 d1' w1' d2' w2' a1' a2' w3' b1' b2' w4' cmd' : List Char)
        (c1 x1 c2 x2 ca cb x3 cc1 cd x4 e0 : Char),
      (∀ c ∈ w0, wsB c = true) → (∀ c ∈ w5, wsB c = true) →
      (∀ c ∈ c1 :: d1', digitB c = true) →
      (∀ c ∈ x1 :: w1', wsB c = true) →
      (∀ c ∈ c2 :: d2', digitB c = true) →
      (∀ c ∈ x2 :: w2', wsB c = true) →
      (∀ c ∈ ca :: a1', digitB c = true) →
      (∀ c ∈ cb :: a2', digitB c = true) →
      (∀ c ∈ x3 :: w3', wsB c = true) →
      (∀ c ∈ cc1 :: b1', digitB c = true) →
      (∀ c ∈ cd :: b2', digitB c = true) →
      (∀ c ∈ x4 :: w4', wsB c = true) →
      wsB e0 = false →
      (∀ c, (e0 :: cmd').getLast? = some c → wsB c = false) →
      (∀ c ∈ e0 :: cmd', termB c = false) →
      parsePsLineL
        (w0 ++ (((c1 :: d1') ++ ((x1 :: w1') ++ ((c2 :: d2') ++ ((x2 :: w2') ++ ((ca :: a1') ++ ('.' :: ((cb :: a2') ++ ((x3 :: w3') ++ ((cc1 :: b1') ++ ('.' :: ((cd :: b2') ++ ((x4 :: w4') ++ (e0 :: cmd'))))))))))))) ++ w5)) =
        some (natOfDigits (c1 :: d1'), natOfDigits (c2 :: d2'),
          ratOfDigits (ca :: a1') (cb :: a2'),
          ratOfDigits (cc1 :: b1') (cd :: b2'), e0 :: cmd')) ∧
    (∀ (rootPid : Nat) (pre post : List (List Char)) (bad : List Char),
      parsePsLineL bad = none →
      processLines rootPid (pre ++ bad :: post) =
        processLines rootPid (pre ++ post)) := by
  constructor
  · intro w0 w5 d1' w1' d2' w2' a1' a2' w3' b1' b2' w4' cmd'
      c1 x1 c2 x2 ca cb x3 cc1 cd x4 e0
      hw0 hw5 hd1 hw1 hd2 hw2 ha1 ha2 hw3 hb1 hb2 hw4 he0 hlast hterm
    have hc1d : digitB c1 = true := hd1 c1 (by simp)
    have hx1w : wsB x1 = true := hw1 x1 (by simp)
    have hc2d : digitB c2 = true := hd2 c2 (by simp)
    have hx2w : wsB x2 = true := hw2 x2 (by simp)
    have hcad : digitB ca = true := ha1 ca (by simp)
    have hx3w : wsB x3 = true := hw3 x3 (by simp)
    have hccd : digitB cc1 = true := hb1 cc1 (by simp)
    have hx4w : wsB x4 = true := hw4 x4 (by simp)
    have hsplitL : ((c1 :: d1') ++ ((x1 :: w1') ++ ((c2 :: d2') ++ ((x2 :: w2') ++ ((ca :: a1') ++ ('.' :: ((cb :: a2') ++ ((x3 :: w3') ++ ((cc1 :: b1') ++ ('.' :: ((cd :: b2') ++ ((x4 :: w4') ++ (e0 :: cmd'))))))))))))) = ((c1 :: d1') ++ ((x1 :: w1') ++ ((c2 :: d2') ++ ((x2 :: w2') ++ ((ca :: a1') ++ ('.' :: ((cb :: a2') ++ ((x3 :: w3') ++ ((cc1 :: b1') ++ ('.' :: ((cd :: b2') ++ (x4 :: w4')))))))))))) ++ (e0 :: cmd') := by
      simp
    have hlastC : ∀ c, (((c1 :: d1') ++ ((x1 :: w1') ++ ((c2 :: d2') ++ ((x2 :: w2') ++ ((ca :: a1') ++ ('.' :: ((cb :: a2') ++ ((x3 :: w3') ++ ((cc1 :: b1') ++ ('.' :: ((cd :: b2') ++ ((x4 :: w4') ++ (e0 :: cmd')))))))))))))).getLast? = some c → wsB c = false := by
      intro c hc
      rw [hsplitL, List.getLast?_append_of_ne_nil _ (by simp)] at hc
      exact hlast c hc
    have htrim := trimJS_sandwich w0
      ((c1 :: d1') ++ ((x1 :: w1') ++ ((c2 :: d2') ++ ((x2 :: w2') ++ ((ca :: a1') ++ ('.' :: ((cb :: a2') ++ ((x3 :: w3') ++ ((cc1 :: b1') ++ ('.' :: ((cd :: b2') ++ ((x4 :: w4') ++ (e0 :: cmd'))))))))))))) w5
      (by simp) hw0 hw5
      (head_false_app _ c1 _ _ (digit_not_ws hc1d))
      hlastC
    have hdw0 : (((c1 :: d1') ++ ((x1 :: w1') ++ ((c2 :: d2') ++ ((x2 :: w2') ++ ((ca :: a1') ++ ('.' :: ((cb :: a2') ++ ((x3 :: w3') ++ ((cc1 :: b1') ++ ('.' :: ((cd :: b2') ++ ((x4 :: w4') ++ (e0 :: cmd')))))))))))))).dropWhile wsB = ((c1 :: d1') ++ ((x1 :: w1') ++ ((c2 :: d2') ++ ((x2 :: w2') ++ ((ca :: a1') ++ ('.' :: ((cb :: a2') ++ ((x3 :: w3') ++ ((cc1 :: b1') ++ ('.' :: ((cd :: b2') ++ ((x4 :: w4') ++ (e0 :: cmd'))))))))))))) :=
      dropWhile_head_false _ _ (head_false_app _ c1 _ _ (digit_not_ws hc1d))
    have s1 := span_run digitB (c1 :: d1')
      ((x1 :: w1') ++ ((c2 :: d2') ++ ((x2 :: w2') ++ ((ca :: a1') ++ ('.' :: ((cb :: a2') ++ ((x3 :: w3') ++ ((cc1 :: b1') ++ ('.' :: ((cd :: b2') ++ ((x4 :: w4') ++ (e0 :: cmd'))))))))))))
      hd1 (head_false_app _ x1 _ _ (ws_not_digit hx1w))
    have s2 := span_run wsB (x1 :: w1')
      ((c2 :: d2') ++ ((x2 :: w2') ++ ((ca :: a1') ++ ('.' :: ((cb :: a2') ++ ((x3 :: w3') ++ ((cc1 :: b1') ++ ('.' :: ((cd :: b2') ++ ((x4 :: w4') ++ (e0 :: cmd')))))))))))
      hw1 (head_false_app _ c2 _ _ (digit_not_ws hc2d))
    have s3 := span_run digitB (c2 :: d2')
      ((x2 :: w2') ++ ((ca :: a1') ++ ('.' :: ((cb :: a2') ++ ((x3 :: w3') ++ ((cc1 :: b1') ++ ('.' :: ((cd :: b2') ++ ((x4 :: w4') ++ (e0 :: cmd'))))))))))
      hd2 (head_false_app _ x2 _ _ (ws_not_digit hx2w))
    have s4 := span_run wsB (x2 :: w2')
      ((ca :: a1') ++ ('.' :: ((cb :: a2') ++ ((x3 :: w3') ++ ((cc1 :: b1') ++ ('.' :: ((cd :: b2') ++ ((x4 :: w4') ++ (e0 :: cmd')))))))))
      hw2 (head_false_app _ ca _ _ (digit_not_ws hcad))
    have s5 := span_run digitB (ca :: a1')
      ('.' :: ((cb :: a2') ++ ((x3 :: w3') ++ ((cc1 :: b1') ++ ('.' :: ((cd :: b2') ++ ((x4 :: w4') ++ (e0 :: cmd'))))))))
      ha1 (head_false_cons _ '.' _ (by decide))
    have s6 := span_run digitB (cb :: a2')
      ((x3 :: w3') ++ ((cc1 :: b1') ++ ('.' :: ((cd :: b2') ++ ((x4 :: w4') ++ (e0 :: cmd'))))))
      ha2 (head_false_app _ x3 _ _ (ws_not_digit hx3w))
    have s7 := span_run wsB (x3 :: w3')
      ((cc1 :: b1') ++ ('.' :: ((cd :: b2') ++ ((x4 :: w4') ++ (e0 :: cmd')))))
      hw3 (head_false_app _ cc1 _ _ (digit_not_ws hccd))
    have s8 := span_run digitB (cc1 :: b1')
      ('.' :: ((cd :: b2') ++ ((x4 :: w4') ++ (e0 :: cmd'))))
      hb1 (head_false_cons _ '.' _ (by decide))
    have s9 := span_run digitB (cd :: b2')
      ((x4 :: w4') ++ (e0 :: cmd'))
      hb2 (head_false_app _ x4 _ _ (ws_not_digit hx4w))
    have s10 := span_run wsB (x4 :: w4')
      (e0 :: cmd')
      hw4 (head_false_cons _ e0 _ he0)
    have hany : (e0 :: cmd').any termB = false := by
      rw [List.any_eq_false]
      intro x hx
      simp [hterm x hx]
    simp only [parsePsLineL, htrim, hdw0, s1.1, s1.2, s2.1, s2.2, s3.1, s3.2,
      s4.1, s4.2, s5.1, s5.2, s6.1, s6.2, s7.1, s7.2, s8.1, s8.2, s9.1, s9.2,
      s10.1, s10.2, hany, List.isEmpty_cons, Bool.false_eq_true, if_false,
      ite_false]
  · intro rootPid pre post bad hbad
    unfold processLines
    simp only [List.foldl_append, List.foldl_cons, hbad]


/-- Claim C9 witness: the line `" 12 3 0.5 2.0 /bin"` parses to its five
fields, and a header line is skipped without disturbing the rest. -/
theorem claim_C9_witness :
    (∀ c ∈ ([' '] : List Char), wsB c = true) ∧
    (∀ c ∈ ([] : List Char), wsB c = true) ∧
    (∀ c ∈ '1' :: ['2'], digitB c = true) ∧
    (∀ c ∈ ' ' :: ([] : List Char), wsB c = true) ∧
    (∀ c ∈ '3' :: ([] : List Char), digitB c = true) ∧
    (∀ c ∈ '0' :: ([] : List Char), digitB c = true) ∧
    (∀ c ∈ '5' :: ([] : List Char), digitB c = true) ∧
    (∀ c ∈ '2' :: ([] : List Char), digitB c = true) ∧
    wsB '/' = false ∧
    (∀ c, ('/' :: ['b', 'i', 'n']).getLast? = some c → wsB c = false) ∧
    (∀ c ∈ '/' :: ['b', 'i', 'n'], termB c = false) ∧
    parsePsLineL ([' '] ++ ((('1' :: ['2']) ++ ((' ' :: ([] : List Char)) ++ (('3' :: ([] : List Char)) ++ ((' ' :: ([] : List Char)) ++ (('0' :: ([] : List Char)) ++ ('.' :: (('5' :: ([] : List Char)) ++ ((' ' :: ([] : List Char)) ++ (('2' :: ([] : List Char)) ++ ('.' :: (('0' :: ([] : List Char)) ++ ((' ' :: ([] : List Char)) ++ ('/' :: ['b', 'i', 'n']))))))))))))) ++ ([] : List Char))) =
      some (natOfDigits ('1' :: ['2']), natOfDigits ('3' :: ([] : List Char)),
        ratOfDigits ('0' :: ([] : List Char)) ('5' :: ([] : List Char)),
        ratOfDigits ('2' :: ([] : List Char)) ('0' :: ([] : List Char)),
        '/' :: ['b', 'i', 'n']) ∧
    parsePsLineL (str "PID TTY") = none ∧
    processLines 1 ([str "x"] ++ (str "PID TTY") :: [str "y"]) =
      processLines 1 ([str "x"] ++ [str "y"]) :=
  ⟨by decide, by decide, by decide, by decide, by decide, by decide,
   by decide, by decide, by decide,
   (by intro c hc; injection hc with h; subst h; decide),
   by decide,
   claim_C9.1 [' '] ([] : List Char) ['2'] ([] : List Char) ([] : List Char)
     ([] : List Char) ([] : List Char) ([] : List Char) ([] : List Char)
     ([] : List Char) ([] : List Char) ([] : List Char) ['b', 'i', 'n']
     '1' ' ' '3' ' ' '0' '5' ' ' '2' '0' ' ' '/'
     (by decide) (by decide) (by decide) (by decide) (by decide) (by decide)
     (by decide) (by decide) (by decide) (by decide) (by decide) (by decide)
     (by decide)
     (by intro c hc; injection hc with h; subst h; decide)
     (by decide),
   by decide,
   claim_C9.2 1 [str "x"] [str "y"] (str "PID TTY") (by decide)⟩

end ProcessList
